import Mathlib

/-!
Shallow embedding of the transport-routing-system core
(backend/app/services: graph_manager, scenario_service, profile_service,
graph_quality_service, routing_service, job_manager) and proofs of the
specification claims about it.

Conventions of the embedding:
* node ids are integers (Python int), weights are rationals (Python float,
  modelled exactly by the rationals since every claim is about order and
  arithmetic structure, not rounding);
* the external PathEngine (routing_core.PyGraph) exposes only edge
  insertion and opaque shortest-path queries, so its observable state is
  the sequence of addEdge calls issued to it; batch queries are modelled
  by an oracle function that may signal an error, per the spec contract;
* Python dicts keyed by (from_node, to_node) are modelled by last-wins
  lookup over the row list, Python sets by Finset / list membership.
-/

/-- An edge of the directed multigraph: (source, target, weight). -/
abbrev Edge := ℤ × ℤ × ℚ

/-! ## PathEngine (routing_core.PyGraph): external capability.
Its only mutator is add_edge, so its state is the list of inserted edges. -/

/-- State of a PyGraph instance: the sequence of edges inserted into it. -/
abbrev PyGraph := List Edge

/-- A freshly constructed PyGraph holds no edges. -/
def PyGraph.empty : PyGraph := []

/-- PyGraph.add_edge: the engine records the inserted edge (no dedup). -/
def PyGraph.add_edge (g : PyGraph) (e : Edge) : PyGraph := g ++ [e]

/-- Replaying an edge list, in order, into a fresh PyGraph. -/
def replayPyGraph (edges : List Edge) : PyGraph :=
  edges.foldl (fun g e => g.add_edge e) PyGraph.empty

/-! ## GraphManager (graph_manager.py) -/

/-- The fields of GraphManager: the mirrored PyGraph, the edge log,
the node set derived from edges, and the explicitly added nodes. -/
structure GraphManager where
  graph : PyGraph
  edges : List Edge
  edge_nodes : Finset ℤ
  explicit_nodes : Finset ℤ
deriving DecidableEq

/-- GraphManager.__init__: empty graph, log and node sets. -/
def GraphManager.init : GraphManager :=
  { graph := PyGraph.empty, edges := [], edge_nodes := ∅, explicit_nodes := ∅ }

/-- GraphManager.add_node: idempotent insert into the explicit node set. -/
def GraphManager.add_node (m : GraphManager) (n : ℤ) : GraphManager :=
  { m with explicit_nodes := insert n m.explicit_nodes }

/-- GraphManager.get_nodes: union of edge-derived and explicit nodes. -/
def GraphManager.get_nodes (m : GraphManager) : Finset ℤ :=
  m.edge_nodes ∪ m.explicit_nodes

/-- GraphManager.add_edge: engine insertion, append to the log, update the
derived node set. -/
def GraphManager.add_edge (m : GraphManager) (u v : ℤ) (w : ℚ) : GraphManager :=
  { m with
    graph := m.graph.add_edge (u, v, w)
    edges := m.edges ++ [(u, v, w)]
    edge_nodes := insert v (insert u m.edge_nodes) }

/-- GraphManager.add_edges: the loop body of add_edge for each edge in order. -/
def GraphManager.add_edges (m : GraphManager) (l : List Edge) : GraphManager :=
  l.foldl (fun m e => m.add_edge e.1 e.2.1 e.2.2) m

/-- GraphManager.get_edges: a value copy of the edge log. -/
def GraphManager.get_edges (m : GraphManager) : List Edge := m.edges

/-- The node set derived from an edge list (the loop recomputing
_edge_nodes, and also the nodes_with_edges loop of the quality analyzer). -/
def derivedNodes (edges : List Edge) : Finset ℤ :=
  edges.foldl (fun s e => insert e.2.1 (insert e.1 s)) ∅

/-- GraphManager._rebuild_core_graph: a fresh PyGraph fed every logged edge. -/
def GraphManager.rebuild_core_graph (m : GraphManager) : GraphManager :=
  { m with graph := replayPyGraph m.edges }

/-- GraphManager.remove_edges: filter the log by (source, target) membership,
recompute the derived node set, fully rebuild the engine; returns the new
state and the number of edges removed. -/
def GraphManager.remove_edges (m : GraphManager) (pairs : Finset (ℤ × ℤ)) :
    GraphManager × ℕ :=
  let newEdges := m.edges.filter (fun e => decide ((e.1, e.2.1) ∉ pairs))
  ({ graph := replayPyGraph newEdges
     edges := newEdges
     edge_nodes := derivedNodes newEdges
     explicit_nodes := m.explicit_nodes },
   m.edges.length - newEdges.length)

/-- GraphManager.remove_isolated_nodes: discard each listed node from the
explicit set; returns the new state and how many were actually removed. -/
def GraphManager.remove_isolated_nodes (m : GraphManager) (ns : List ℤ) :
    GraphManager × ℕ :=
  let newExplicit := ns.foldl (fun s n => s.erase n) m.explicit_nodes
  ({ m with explicit_nodes := newExplicit },
   m.explicit_nodes.card - newExplicit.card)

/-- The mutating operations of the GraphManager interface. -/
inductive GraphOp
  | addNode (n : ℤ)
  | addEdge (u v : ℤ) (w : ℚ)
  | addEdges (l : List Edge)
  | removeEdges (pairs : Finset (ℤ × ℤ))
  | removeIsolatedNodes (ns : List ℤ)

/-- Apply one operation to a GraphManager state. -/
def applyOp (m : GraphManager) : GraphOp → GraphManager
  | GraphOp.addNode n => m.add_node n
  | GraphOp.addEdge u v w => m.add_edge u v w
  | GraphOp.addEdges l => m.add_edges l
  | GraphOp.removeEdges pairs => (m.remove_edges pairs).1
  | GraphOp.removeIsolatedNodes ns => (m.remove_isolated_nodes ns).1

/-- The state reached from a fresh GraphManager by a sequence of operations. -/
def runOps (ops : List GraphOp) : GraphManager :=
  ops.foldl applyOp GraphManager.init

/-! ## Scenario overlay (scenario_service.py) -/

/-- A scenario_modifications row, keyed by (from_node, to_node).
weight_multiplier is NOT NULL with default 1.0 in the schema, but the code
guards it with an is-not-None check, so it is carried as an option here. -/
structure ScenarioModification where
  from_node : ℤ
  to_node : ℤ
  disable : Bool
  weight_multiplier : Option ℚ
  new_weight : Option ℚ
deriving DecidableEq

/-- The mods_map dict comprehension: keyed by (from_node, to_node),
a later row with the same key overwrites an earlier one. -/
def mods_map (mods : List ScenarioModification) (u v : ℤ) :
    Option ScenarioModification :=
  (mods.filter (fun m => m.from_node == u && m.to_node == v)).getLast?

/-- The function _build_edges_for_scenario: each base edge is passed through, dropped,
or reweighted according to the modification keyed by its endpoints. -/
def build_edges_for_scenario (base_edges : List Edge)
    (mods : List ScenarioModification) : List Edge :=
  base_edges.filterMap (fun e =>
    match mods_map mods e.1 e.2.1 with
    | none => some e
    | some m =>
      if m.disable then none
      else
        let w1 := match m.new_weight with
          | some nw => nw
          | none => e.2.2
        let w2 := match m.weight_multiplier with
          | some k => w1 * k
          | none => w1
        some (e.1, e.2.1, w2))

/-- The effective weight as the specification words it: (newWeight if
present, else the base weight) multiplied by weightMultiplier with
default 1.0. Stated from the spec, to be compared with the code above. -/
def scenarioSpecWeight (m : ScenarioModification) (w : ℚ) : ℚ :=
  (m.new_weight.getD w) * (m.weight_multiplier.getD 1)

/-! ## Profile overlay (profile_service.py) -/

/-- An optimization_profiles row. The columns are NOT NULL in the schema,
but the code reads them through a Python or-with-0.0 guard, which maps the
missing value to 0.0 and is the identity on every present float; it is
modelled by Option with getD 0. transfer_penalty is carried but unused. -/
structure OptimizationProfile where
  weight_time : Option ℚ
  weight_distance : Option ℚ
  weight_cost : Option ℚ
  transfer_penalty : Option ℚ
deriving DecidableEq

/-- An edge_metadata row (the fields compute_route_with_profile reads). -/
structure EdgeMetadata where
  from_node : ℤ
  to_node : ℤ
  travel_time : Option ℚ
  distance : Option ℚ
  cost : Option ℚ
deriving DecidableEq

/-- The meta_map dict comprehension keyed by (from_node, to_node),
last row with the same key wins. -/
def meta_map (rows : List EdgeMetadata) (u v : ℤ) : Option EdgeMetadata :=
  (rows.filter (fun m => m.from_node == u && m.to_node == v)).getLast?

/-- The per-edge weight computed in the loop of compute_route_with_profile:
the weighted sum of travel time, distance and cost with the documented
fallbacks, guarded so that a non-positive aggregate falls back to the base
weight, or to 1.0 when the base weight is itself non-positive. -/
def profile_edge_weight (w_time w_dist w_cost : ℚ) (base_weight : ℚ)
    (meta : Option EdgeMetadata) : ℚ :=
  let tdc : ℚ × ℚ × ℚ :=
    match meta with
    | some m =>
      (m.travel_time.getD base_weight, m.distance.getD 0, m.cost.getD 0)
    | none => (base_weight, 0, 0)
  let agg := w_time * tdc.1 + w_dist * tdc.2.1 + w_cost * tdc.2.2
  if ¬(agg > 0) then (if base_weight > 0 then base_weight else 1) else agg

/-- The edge list fed to the throwaway PyGraph by
compute_route_with_profile: every base edge reweighted by the profile. -/
def build_edges_with_profile (p : OptimizationProfile)
    (base_edges : List Edge) (rows : List EdgeMetadata) : List Edge :=
  base_edges.map (fun e =>
    (e.1, e.2.1,
      profile_edge_weight (p.weight_time.getD 0) (p.weight_distance.getD 0)
        (p.weight_cost.getD 0) e.2.2 (meta_map rows e.1 e.2.1)))

/-- The effective weight as the specification words it, with the fallback
written as a comparison with ≤ 0. Stated from the spec, to be compared
with the code above. -/
def profileSpecWeight (p : OptimizationProfile) (rows : List EdgeMetadata)
    (u v : ℤ) (w : ℚ) : ℚ :=
  let t := match meta_map rows u v with
    | some m => m.travel_time.getD w
    | none => w
  let d := match meta_map rows u v with
    | some m => m.distance.getD 0
    | none => 0
  let c := match meta_map rows u v with
    | some m => m.cost.getD 0
    | none => 0
  let agg := p.weight_time.getD 0 * t + p.weight_distance.getD 0 * d +
    p.weight_cost.getD 0 * c
  if agg ≤ 0 then (if 0 < w then w else 1) else agg

/-! ## Batch routing (routing_service.find_routes_batch) and the
asynchronous job manager (job_manager.py) -/

/-- A distance reported by the engine: a finite value or the infinite
sentinel used for unreachable targets. -/
inductive EngineDist
  | val (q : ℚ)
  | inf
deriving DecidableEq

/-- The fields of a RouteRequest that the batch/job path reads
(criteria and algorithm only feed the skipped route-history logging). -/
structure RouteRequest where
  source : ℤ
  target : ℤ
  profile : Option String
  scenario_id : Option ℤ
deriving DecidableEq

/-- The fields of a RouteResponse that the batch path fills from the
engine result (segments are derived from nodes, execution time is wall
clock). -/
structure RouteResponse where
  total_weight : EngineDist
  nodes : List ℤ
deriving DecidableEq

/-- One element of a batch response. -/
structure RouteBatchItem where
  request : RouteRequest
  response : RouteResponse
deriving DecidableEq

/-- The external batch engine call (PyGraph.shortest_paths_batch through
GraphManager). Modelled from the spec: per the PathEngine contract it
answers every (source, target) query in order, and may instead signal an
error (e.g. an unknown node id), which surfaces as a Python exception. -/
abbrev BatchEngine := List (ℤ × ℤ) → Except String (List (EngineDist × List ℤ))

/-- find_routes_batch: reject any query carrying a scenario_id, then any
query carrying a profile, then run one engine call for the whole batch and
wrap each engine result into a RouteBatchItem in input order. An engine
error propagates to the caller; nothing is caught per query. -/
def find_routes_batch (engine : BatchEngine) (queries : List RouteRequest) :
    Except String (List RouteBatchItem) :=
  if queries.any (fun r => r.scenario_id.isSome) then
    Except.error "scenario_id у batch-запитах наразі не підтримується"
  else if queries.any (fun r => r.profile.isSome) then
    Except.error "profile у batch-запитах наразі не підтримується"
  else
    match engine (queries.map (fun r => (r.source, r.target))) with
    | Except.error e => Except.error e
    | Except.ok results =>
      Except.ok ((queries.zip results).map (fun p =>
        { request := p.1
          response := { total_weight := p.2.1, nodes := p.2.2 } }))

/-- The job lifecycle states. -/
inductive JobStatus
  | queued
  | running
  | finished
  | failed
deriving DecidableEq

/-- A RoutingJob record (timestamps are abstract rationals). -/
structure RoutingJob where
  id : String
  request : List RouteRequest
  status : JobStatus
  created_at : ℚ
  started_at : Option ℚ
  finished_at : Option ℚ
  error_message : Option String
  result : Option (List RouteBatchItem)
deriving DecidableEq

/-- RoutingJobManager.submit: a fresh job enters the table queued, with no
timestamps, no error and no result. -/
def submitJob (id : String) (request : List RouteRequest) (t : ℚ) :
    RoutingJob :=
  { id := id, request := request, status := JobStatus.queued,
    created_at := t, started_at := none, finished_at := none,
    error_message := none, result := none }

/-- The first locked block of _run_job: the job becomes running with a
start timestamp. -/
def startJob (j : RoutingJob) (t : ℚ) : RoutingJob :=
  { j with status := JobStatus.running, started_at := some t }

/-- The terminal locked block of _run_job: on success the result, the
finished status and the finish timestamp are stored; on any exception the
failed status, the error message and the finish timestamp are stored. -/
def finishJob (j : RoutingJob)
    (outcome : Except String (List RouteBatchItem)) (t : ℚ) : RoutingJob :=
  match outcome with
  | Except.ok r =>
    { j with
      result := some r
      status := JobStatus.finished
      finished_at := some t }
  | Except.error e =>
    { j with
      status := JobStatus.failed
      error_message := some e
      finished_at := some t }

/-- The sequence of job states observable under the job-table lock for one
job executed to completion: queued at submission, running at worker start,
then exactly one terminal state. -/
def jobTrace (id : String) (request : List RouteRequest)
    (outcome : Except String (List RouteBatchItem)) (t0 t1 t2 : ℚ) :
    List RoutingJob :=
  let j0 := submitJob id request t0
  let j1 := startJob j0 t1
  [j0, j1, finishJob j1 outcome t2]

/-- The final job state after _run_job executed find_routes_batch. -/
def final_job (engine : BatchEngine) (id : String)
    (request : List RouteRequest) (t0 t1 t2 : ℚ) : RoutingJob :=
  finishJob (startJob (submitJob id request t0) t1)
    (find_routes_batch engine request) t2

/-- A concrete engine for evaluation: it knows the listed node ids,
answers every query over known nodes with the unreachable sentinel, and
signals an error as soon as any query touches an unknown node id. -/
def engineKnownNodes (known : List ℤ) : BatchEngine := fun qs =>
  if qs.all (fun q => known.contains q.1 && known.contains q.2) then
    Except.ok (qs.map (fun _ => (EngineDist.inf, ([] : List ℤ))))
  else Except.error "unknown node id"

/-! ## Graph quality analysis (graph_quality_service.py) -/

/-- The adjacency dict of the near-zero subgraph: insertion-ordered
association list; setdefault appends the target to the source's list. -/
def adjInsert (adj : List (ℤ × List ℤ)) (u v : ℤ) : List (ℤ × List ℤ) :=
  match adj with
  | [] => [(u, [v])]
  | (k, vs) :: rest =>
    if k = u then (k, vs ++ [v]) :: rest else (k, vs) :: adjInsert rest u v

/-- The adjacency built from the edges with |weight| ≤ eps, in log order. -/
def buildAdj (edges : List Edge) (eps : ℚ) : List (ℤ × List ℤ) :=
  edges.foldl (fun adj e => if |e.2.2| ≤ eps then adjInsert adj e.1 e.2.1 else adj) []

/-- adj.get(current, []): the neighbor list of a node, empty by default. -/
def adjGet (adj : List (ℤ × List ℤ)) (u : ℤ) : List ℤ :=
  match adj with
  | [] => []
  | (k, vs) :: rest => if k = u then vs else adjGet rest u

/-- The minimum of a Python list of ints (min of a nonempty list). -/
def listMin : List ℤ → Option ℤ
  | [] => none
  | x :: xs =>
    some (match listMin xs with
      | none => x
      | some m => min x m)

/-- list.index: the first index of a value. -/
def listIndexOf (a : ℤ) : List ℤ → ℕ
  | [] => 0
  | x :: xs => if x = a then 0 else listIndexOf a xs + 1

/-- The canonical form of a found cycle: the node sequence rotated to
start at the first occurrence of its minimum value. -/
def canon (core : List ℤ) : List ℤ :=
  match listMin core with
  | none => []
  | some m =>
    let i := listIndexOf m core
    core.drop i ++ core.take i

/-- The mutable search state shared by the recursive walk: the set of
canonical forms already seen, the cycles reported so far, and the flag set
once max_cycles cycles were found. -/
structure SearchState where
  seen : List (List ℤ)
  zero_cycles : List (List ℤ)
  limit_reached : Bool
deriving DecidableEq

/-- The for-loop body of dfs over the neighbor list of the current node.
A neighbor equal to the walk's start closes a cycle: the current path is
canonicalized and recorded if unseen, and once max_cycles cycles are
collected the limit flag is set and the loop returns early. A neighbor
already on the open path is skipped; any other neighbor is explored by the
child step (the recursive dfs call with the neighbor appended). Note that
the close-a-cycle arm does not test the limit flag, exactly as the code:
a parent whose descendant set the flag still finishes its own loop. -/
def dfsLoop (maxCycles : ℕ) (start : ℤ) (path : List ℤ)
    (child : ℤ → SearchState → SearchState) :
    List ℤ → SearchState → SearchState
  | [], st => st
  | nxt :: rest, st =>
    if nxt = start then
      if 1 ≤ path.length then
        let norm := canon path
        if norm ∈ st.seen then dfsLoop maxCycles start path child rest st
        else
          let st' : SearchState :=
            { seen := norm :: st.seen
              zero_cycles := st.zero_cycles ++ [path]
              limit_reached := st.limit_reached }
          if maxCycles ≤ st'.zero_cycles.length then
            { st' with limit_reached := true }
          else dfsLoop maxCycles start path child rest st'
      else dfsLoop maxCycles start path child rest st
    else if nxt ∈ path then dfsLoop maxCycles start path child rest st
    else dfsLoop maxCycles start path child rest (child nxt st)

/-- The recursive dfs of analyze_graph_quality. The fuel argument is
max_depth minus the current depth, so the depth-cap test at entry is the
fuel-exhaustion test; a walk whose descendants set the limit flag returns
immediately on reentry. -/
def dfs (adj : List (ℤ × List ℤ)) (maxCycles : ℕ) (start : ℤ) :
    ℕ → ℤ → List ℤ → SearchState → SearchState
  | 0, _, _, st => st
  | fuel + 1, current, path, st =>
    if st.limit_reached then st
    else
      dfsLoop maxCycles start path
        (fun nxt st' => dfs adj maxCycles start fuel nxt (path ++ [nxt]) st')
        (adjGet adj current) st

/-- The outer loop over the keys of the near-zero adjacency: each start
node is walked from the singleton path unless the limit was reached. -/
def zeroCycleSearch (edges : List Edge) (maxCycles maxDepth : ℕ) (eps : ℚ) :
    SearchState :=
  let adj := buildAdj edges eps
  adj.foldl
    (fun st p =>
      if st.limit_reached then st
      else dfs adj maxCycles p.1 maxDepth p.1 [p.1] st)
    { seen := [], zero_cycles := [], limit_reached := false }

/-- The report of analyze_graph_quality. -/
structure GraphQualityResult where
  isolated_nodes : List ℤ
  zero_weight_cycles : List (List ℤ)
  zero_cycle_limit_reached : Bool
deriving DecidableEq

/-- analyze_graph_quality: isolated nodes are the effective nodes touched
by no edge, sorted; zero-weight cycles come from the bounded dfs over the
near-zero subgraph. -/
def analyze_graph_quality (m : GraphManager) (max_cycles max_depth : ℕ)
    (eps : ℚ) : GraphQualityResult :=
  let edges := m.get_edges
  let nodes := m.get_nodes
  let nodes_with_edges := derivedNodes edges
  let isolated := (nodes \ nodes_with_edges).sort (· ≤ ·)
  let search := zeroCycleSearch edges max_cycles max_depth eps
  { isolated_nodes := isolated
    zero_weight_cycles := search.zero_cycles
    zero_cycle_limit_reached := search.limit_reached }

/-- The edge set scheduled for removal by fix_graph_quality: every
(cycle[i], cycle[(i+1) mod len]) pair of every reported cycle. -/
def fix_edges_to_remove (cycles : List (List ℤ)) : Finset (ℤ × ℤ) :=
  cycles.foldl
    (fun s c =>
      if c = [] then s
      else
        ((List.range c.length).map
          (fun i => (c.getD i 0, c.getD ((i + 1) % c.length) 0))).foldl
          (fun s p => insert p s) s)
    ∅

/-- A node sequence all of whose consecutive steps, the wrap-around step
from the last node back to the first included, follow the adjacency. -/
def AdjCycle (adj : List (ℤ × List ℤ)) (c : List ℤ) : Prop :=
  c ≠ [] ∧ List.Chain' (fun a b => b ∈ adjGet adj a) (c ++ c.take 1)

/-- fix_graph_quality (the state-changing part; the audit-log row written
to the database is an external collaborator): remove every edge whose
(source, target) pair occurs consecutively in some reported cycle, then
remove the reported isolated nodes; the guards mirror the Python
truthiness tests on the collections. -/
def fix_graph_quality (m : GraphManager) (quality : GraphQualityResult) :
    GraphManager × ℕ × ℕ :=
  let pairs := fix_edges_to_remove quality.zero_weight_cycles
  let step1 := if pairs = ∅ then (m, 0) else m.remove_edges pairs
  let step2 :=
    if quality.isolated_nodes = [] then (step1.1, 0)
    else step1.1.remove_isolated_nodes quality.isolated_nodes
  (step2.1, step1.2, step2.2)

/-- The internal consistency invariant of a GraphManager state: the
mirrored engine equals the edge log, and the derived node set is the node
set of the edge log. -/
def GraphInv (m : GraphManager) : Prop :=
  m.graph = m.edges ∧ m.edge_nodes = derivedNodes m.edges

/-- Every cycle collected in a search state is a cycle of the adjacency. -/
def CyclesAdj (adj : List (ℤ × List ℤ)) (st : SearchState) : Prop :=
  ∀ c ∈ st.zero_cycles, AdjCycle adj c

/-- The deduplication invariant of the search state: every collected
cycle has its canonical form registered in seen, the canonical forms of
the collected cycles are pairwise distinct, and every collected cycle is
a nonempty duplicate-free node sequence. -/
def DedupInv (st : SearchState) : Prop :=
  (∀ c ∈ st.zero_cycles, canon c ∈ st.seen) ∧
  st.zero_cycles.Pairwise (fun a b => canon a ≠ canon b) ∧
  (∀ c ∈ st.zero_cycles, c.Nodup ∧ c ≠ [])

/-! ## Helper lemmas -/

lemma replay_foldl (l : List Edge) (g : PyGraph) :
    l.foldl (fun g e => g.add_edge e) g = g ++ l := by
  induction l generalizing g with
  | nil => simp
  | cons e l ih =>
    rw [List.foldl_cons, ih]
    simp [PyGraph.add_edge]

lemma replayPyGraph_eq (l : List Edge) : replayPyGraph l = l := by
  simp [replayPyGraph, replay_foldl, PyGraph.empty]

lemma derivedNodes_append (l : List Edge) (e : Edge) :
    derivedNodes (l ++ [e]) = insert e.2.1 (insert e.1 (derivedNodes l)) := by
  simp [derivedNodes, List.foldl_append]

lemma graphInv_add_edge {m : GraphManager} (h : GraphInv m) (u v : ℤ) (w : ℚ) :
    GraphInv (m.add_edge u v w) := by
  obtain ⟨h1, h2⟩ := h
  constructor
  · simp [GraphManager.add_edge, PyGraph.add_edge, h1]
  · simp [GraphManager.add_edge, h2, derivedNodes_append]

lemma graphInv_add_edges {m : GraphManager} (h : GraphInv m) (l : List Edge) :
    GraphInv (m.add_edges l) := by
  induction l generalizing m with
  | nil => simpa [GraphManager.add_edges] using h
  | cons e l ih =>
    have : GraphInv (m.add_edge e.1 e.2.1 e.2.2) := graphInv_add_edge h _ _ _
    simpa [GraphManager.add_edges] using ih this

lemma graphInv_applyOp {m : GraphManager} (h : GraphInv m) (op : GraphOp) :
    GraphInv (applyOp m op) := by
  obtain ⟨h1, h2⟩ := h
  cases op with
  | addNode n => exact ⟨h1, h2⟩
  | addEdge u v w => exact graphInv_add_edge ⟨h1, h2⟩ u v w
  | addEdges l => exact graphInv_add_edges ⟨h1, h2⟩ l
  | removeEdges pairs =>
    constructor
    · simp [applyOp, GraphManager.remove_edges, replayPyGraph_eq]
    · simp [applyOp, GraphManager.remove_edges]
  | removeIsolatedNodes ns =>
    constructor
    · simpa [applyOp, GraphManager.remove_isolated_nodes] using h1
    · simpa [applyOp, GraphManager.remove_isolated_nodes] using h2

lemma graphInv_foldl (ops : List GraphOp) :
    ∀ m, GraphInv m → GraphInv (ops.foldl applyOp m) := by
  induction ops with
  | nil => intro m h; simpa using h
  | cons op ops ih => intro m h; exact ih _ (graphInv_applyOp h op)

lemma graphInv_runOps (ops : List GraphOp) : GraphInv (runOps ops) := by
  have base : GraphInv GraphManager.init := by
    constructor <;> simp [GraphManager.init, PyGraph.empty, derivedNodes]
  exact graphInv_foldl ops _ base

/-- Claim C5: after any sequence of GraphState operations (addNode,
addEdge, addEdges, removeEdges, removeIsolatedNodes) applied to a fresh
GraphManager, the mirrored PathEngine instance holds exactly the edges of
the current edge log: its state equals the state obtained by replaying the
current edge log, in order, into a fresh PathEngine. -/
theorem mirror_reflects_edge_log (ops : List GraphOp) :
    (runOps ops).graph = replayPyGraph (runOps ops).edges := by
  rw [replayPyGraph_eq]
  exact (graphInv_runOps ops).1

/-- Claim C6: on any reachable GraphManager state, remove_edges leaves the
edge log equal to the original log filtered (in order) to the edges whose
(source, target) pair is not in the given set, returns the number of
removed edges, and when no logged edge matches it is a complete no-op
returning 0: the edge log, both node sets and the mirrored PathEngine are
all unchanged. -/
theorem remove_edges_correct (ops : List GraphOp) (pairs : Finset (ℤ × ℤ)) :
    ((runOps ops).remove_edges pairs).1.edges =
      (runOps ops).edges.filter (fun e => decide ((e.1, e.2.1) ∉ pairs)) ∧
    ((runOps ops).remove_edges pairs).2 =
      ((runOps ops).edges.filter (fun e => decide ((e.1, e.2.1) ∈ pairs))).length ∧
    ((∀ e ∈ (runOps ops).edges, (e.1, e.2.1) ∉ pairs) →
      (runOps ops).remove_edges pairs = (runOps ops, 0)) := by
  obtain ⟨hg, hn⟩ := graphInv_runOps ops
  set m := runOps ops with hm
  refine ⟨rfl, ?_, ?_⟩
  · have hlen := List.length_eq_length_filter_add
      (l := m.edges) (fun e => decide ((e.1, e.2.1) ∉ pairs))
    have hcompl :
        (fun e : Edge => !(decide ((e.1, e.2.1) ∉ pairs))) =
          (fun e : Edge => decide ((e.1, e.2.1) ∈ pairs)) := by
      funext e
      by_cases h : (e.1, e.2.1) ∈ pairs <;> simp [h]
    rw [hcompl] at hlen
    simp only [GraphManager.remove_edges]
    omega
  · intro hnone
    have hfil : m.edges.filter (fun e => decide ((e.1, e.2.1) ∉ pairs)) = m.edges :=
      List.filter_eq_self.mpr (fun e he => decide_eq_true (hnone e he))
    have hstate :
        GraphManager.mk m.edges m.edges (derivedNodes m.edges) m.explicit_nodes = m := by
      conv_rhs =>
        rw [show m = GraphManager.mk m.graph m.edges m.edge_nodes m.explicit_nodes
          from rfl]
      rw [hg, hn]
    simp only [GraphManager.remove_edges, hfil, replayPyGraph_eq, Nat.sub_self]
    rw [hstate]

/-- Claim C3: the scenario overlay maps each base edge as the spec words
it: with no modification keyed by its endpoints the edge passes through
unchanged, a disabling modification drops it (the output never contains an
edge whose modification has disable set), and otherwise the effective
weight is (newWeight if present, else the base weight) multiplied by
weightMultiplier with default 1.0. -/
theorem scenario_overlay_correct (base_edges : List Edge)
    (mods : List ScenarioModification) :
    build_edges_for_scenario base_edges mods =
      base_edges.filterMap (fun e =>
        match mods_map mods e.1 e.2.1 with
        | none => some e
        | some m =>
          if m.disable then none
          else some (e.1, e.2.1, scenarioSpecWeight m e.2.2)) ∧
    (∀ u v m, mods_map mods u v = some m → m.disable = true →
      ∀ w, (u, v, w) ∉ build_edges_for_scenario base_edges mods) := by
  constructor
  · unfold build_edges_for_scenario
    apply List.filterMap_congr
    intro e _
    cases hmod : mods_map mods e.1 e.2.1 with
    | none => rfl
    | some m =>
      by_cases hd : m.disable
      · simp [hd]
      · cases hnw : m.new_weight with
        | none =>
          cases hmul : m.weight_multiplier with
          | none => simp [hd, scenarioSpecWeight, hnw, hmul]
          | some k => simp [hd, scenarioSpecWeight, hnw, hmul]
        | some nw =>
          cases hmul : m.weight_multiplier with
          | none => simp [hd, scenarioSpecWeight, hnw, hmul]
          | some k => simp [hd, scenarioSpecWeight, hnw, hmul]
  · intro u v m hmod hdis w hmem
    unfold build_edges_for_scenario at hmem
    rw [List.mem_filterMap] at hmem
    obtain ⟨e, _, hfe⟩ := hmem
    cases hq : mods_map mods e.1 e.2.1 with
    | none =>
      rw [hq] at hfe
      simp only [Option.some.injEq] at hfe
      subst hfe
      rw [hq] at hmod
      cases hmod
    | some m' =>
      rw [hq] at hfe
      by_cases hd : m'.disable
      · simp [hd] at hfe
      · simp only [hd, if_neg, Bool.false_eq_true, ite_false,
          Option.some.injEq] at hfe
        have he1 : e.1 = u := congrArg Prod.fst hfe
        have he2 : e.2.1 = v := congrArg (fun p => p.2.1) hfe
        rw [he1, he2, hmod] at hq
        cases hq
        exact hd hdis

lemma ite_pos_helper (agg base : ℚ) :
    0 < (if ¬(agg > 0) then (if base > 0 then base else 1) else agg) := by
  by_cases h1 : agg > 0
  · simp [h1]
  · by_cases h2 : base > 0 <;> simp [h1, h2]

lemma profile_edge_weight_pos (wt wd wc base : ℚ) (meta : Option EdgeMetadata) :
    0 < profile_edge_weight wt wd wc base meta := by
  unfold profile_edge_weight
  exact ite_pos_helper _ _

/-- Claim C4: for every optimization profile, every per-edge metadata
assignment (including entirely missing metadata) and every base edge, the
profile-overlay effective weight handed to the PathEngine equals
weightTime×time + weightDistance×distance + weightCost×cost (time falling
back to the base edge weight, distance and cost to 0 when metadata is
absent), with a fallback to the base weight, or to 1.0 when the base
weight is also non-positive, whenever that sum is ≤ 0 — and it is always
strictly positive. -/
theorem profile_overlay_weight_correct (p : OptimizationProfile)
    (rows : List EdgeMetadata) (base_edges : List Edge) :
    build_edges_with_profile p base_edges rows =
      base_edges.map (fun e => (e.1, e.2.1, profileSpecWeight p rows e.1 e.2.1 e.2.2)) ∧
    (∀ e ∈ build_edges_with_profile p base_edges rows, 0 < e.2.2) := by
  constructor
  · unfold build_edges_with_profile
    apply List.map_congr_left
    intro e _
    cases hmeta : meta_map rows e.1 e.2.1 with
    | none => simp [profile_edge_weight, profileSpecWeight, hmeta, not_lt]
    | some md => simp [profile_edge_weight, profileSpecWeight, hmeta, not_lt]
  · intro e hmem
    unfold build_edges_with_profile at hmem
    rw [List.mem_map] at hmem
    obtain ⟨b, _, hb⟩ := hmem
    have : e.2.2 = profile_edge_weight (p.weight_time.getD 0)
        (p.weight_distance.getD 0) (p.weight_cost.getD 0) b.2.2
        (meta_map rows b.1 b.2.1) := by
      rw [← hb]
    rw [this]
    exact profile_edge_weight_pos _ _ _ _ _

/-- Claim C1: for every job created by submit and executed to completion
by its worker, the observed status sequence is exactly queued, running,
then one terminal state — a subsequence of the chain
queued → running → {finished | failed} with no repeats and no skips, and
exactly one of the two terminal transitions; a job that reaches finished
has a non-null result and finished_at, and a job that reaches failed has a
non-null error_message and finished_at. -/
theorem job_lifecycle (id : String) (request : List RouteRequest)
    (outcome : Except String (List RouteBatchItem)) (t0 t1 t2 : ℚ) :
    ((jobTrace id request outcome t0 t1 t2).map RoutingJob.status =
        [JobStatus.queued, JobStatus.running, JobStatus.finished] ∨
      (jobTrace id request outcome t0 t1 t2).map RoutingJob.status =
        [JobStatus.queued, JobStatus.running, JobStatus.failed]) ∧
    (∀ j ∈ jobTrace id request outcome t0 t1 t2, j.status = JobStatus.finished →
      j.result.isSome ∧ j.finished_at.isSome) ∧
    (∀ j ∈ jobTrace id request outcome t0 t1 t2, j.status = JobStatus.failed →
      j.error_message.isSome ∧ j.finished_at.isSome) := by
  cases outcome with
  | ok r =>
    refine ⟨Or.inl ?_, ?_, ?_⟩ <;>
      simp [jobTrace, submitJob, startJob, finishJob]
  | error e =>
    refine ⟨Or.inr ?_, ?_, ?_⟩ <;>
      simp [jobTrace, submitJob, startJob, finishJob]

/-- Witness for C1 at a concrete finished job: the terminal state of a
successfully executed empty batch carries a result and a finish time. -/
theorem job_lifecycle_witness :
    (finishJob (startJob (submitJob "j" [] 0) 1) (Except.ok []) 2).result.isSome ∧
    (finishJob (startJob (submitJob "j" [] 0) 1) (Except.ok []) 2).finished_at.isSome :=
  (job_lifecycle "j" [] (Except.ok []) 0 1 2).2.1
    (finishJob (startJob (submitJob "j" [] 0) 1) (Except.ok []) 2)
    (by simp [jobTrace]) (by rfl)

/-- Counterexample to claim C2: in the batch/job path a PathEngine error
affecting a single query (the middle query of three names the unknown node
99) is not recorded against that query only: find_routes_batch surfaces
the error for the batch as a whole, no sibling result is produced, and the
enclosing job fails with that error message instead of finishing. -/
theorem batch_failure_not_isolated :
    find_routes_batch (engineKnownNodes [1, 2])
        [⟨1, 2, none, none⟩, ⟨1, 99, none, none⟩, ⟨2, 1, none, none⟩] =
      Except.error "unknown node id" ∧
    (final_job (engineKnownNodes [1, 2]) "j"
        [⟨1, 2, none, none⟩, ⟨1, 99, none, none⟩, ⟨2, 1, none, none⟩]
        0 0 0).status = JobStatus.failed ∧
    (final_job (engineKnownNodes [1, 2]) "j"
        [⟨1, 2, none, none⟩, ⟨1, 99, none, none⟩, ⟨2, 1, none, none⟩]
        0 0 0).result = none :=
  ⟨rfl, rfl, rfl⟩

/-- Claim C2 as amended: in the batch/job path per-query failures are not
isolated: whenever the engine signals an error for a batch of base-graph
queries, find_routes_batch propagates that error without producing any
per-query result, and the enclosing job transitions to failed with the
error message captured on the job and no result list. -/
theorem batch_failure_fails_job (engine : BatchEngine)
    (queries : List RouteRequest) (e id : String) (t0 t1 t2 : ℚ)
    (hs : queries.any (fun r => r.scenario_id.isSome) = false)
    (hp : queries.any (fun r => r.profile.isSome) = false)
    (he : engine (queries.map (fun r => (r.source, r.target))) = Except.error e) :
    find_routes_batch engine queries = Except.error e ∧
    (final_job engine id queries t0 t1 t2).status = JobStatus.failed ∧
    (final_job engine id queries t0 t1 t2).error_message = some e ∧
    (final_job engine id queries t0 t1 t2).result = none := by
  have hbatch : find_routes_batch engine queries = Except.error e := by
    simp [find_routes_batch, hs, hp, he]
  refine ⟨hbatch, ?_, ?_, ?_⟩ <;>
    simp [final_job, hbatch, finishJob, startJob, submitJob]

/-- Witness for the amended C2 at the concrete three-query batch whose
middle query names the unknown node 99. -/
theorem batch_failure_fails_job_witness :
    find_routes_batch (engineKnownNodes [1, 2])
        [⟨1, 2, none, none⟩, ⟨2, 99, none, none⟩, ⟨2, 1, none, none⟩] =
      Except.error "unknown node id" ∧
    (final_job (engineKnownNodes [1, 2]) "w"
        [⟨1, 2, none, none⟩, ⟨2, 99, none, none⟩, ⟨2, 1, none, none⟩]
        0 0 1).status = JobStatus.failed ∧
    (final_job (engineKnownNodes [1, 2]) "w"
        [⟨1, 2, none, none⟩, ⟨2, 99, none, none⟩, ⟨2, 1, none, none⟩]
        0 0 1).error_message = some "unknown node id" ∧
    (final_job (engineKnownNodes [1, 2]) "w"
        [⟨1, 2, none, none⟩, ⟨2, 99, none, none⟩, ⟨2, 1, none, none⟩]
        0 0 1).result = none :=
  batch_failure_fails_job (engineKnownNodes [1, 2]) _ "unknown node id" "w"
    0 0 1 (by rfl) (by rfl) (by rfl)

/-- Claim C9: if any query of a batch carries a scenario_id or a profile,
the batch computation raises before executing any query — the error is the
same whatever the engine answers, so no query runs — and the enclosing job
fails as a whole. -/
theorem batch_rejects_scenario_and_profile (queries : List RouteRequest)
    (id : String) (t0 t1 t2 : ℚ)
    (h : ∃ r ∈ queries, r.scenario_id.isSome ∨ r.profile.isSome) :
    (∃ msg, ∀ engine : BatchEngine,
      find_routes_batch engine queries = Except.error msg) ∧
    (∀ engine : BatchEngine,
      (final_job engine id queries t0 t1 t2).status = JobStatus.failed) := by
  have hmsg : ∃ msg, ∀ engine : BatchEngine,
      find_routes_batch engine queries = Except.error msg := by
    by_cases hs : queries.any (fun r => r.scenario_id.isSome)
    · refine ⟨"scenario_id у batch-запитах наразі не підтримується",
        fun engine => ?_⟩
      simp [find_routes_batch, hs]
    · have hp : queries.any (fun r => r.profile.isSome) = true := by
        obtain ⟨r, hr, hcase⟩ := h
        rcases hcase with hsc | hpr
        · exact absurd (List.any_eq_true.mpr ⟨r, hr, hsc⟩) hs
        · exact List.any_eq_true.mpr ⟨r, hr, hpr⟩
      refine ⟨"profile у batch-запитах наразі не підтримується",
        fun engine => ?_⟩
      simp only [find_routes_batch, hp]
      simp [Bool.not_eq_true] at hs
      simp [List.any_eq_true]
      intro x hx
      exact hs x hx
  obtain ⟨msg, hall⟩ := hmsg
  refine ⟨⟨msg, hall⟩, fun engine => ?_⟩
  simp [final_job, hall engine, finishJob, startJob, submitJob]

/-- Witness for C9: a single-query batch carrying scenario_id 5 makes the
job fail whatever the engine would answer. -/
theorem batch_rejects_scenario_and_profile_witness :
    (final_job (engineKnownNodes []) "w9" [⟨1, 2, none, some 5⟩] 0 0 0).status =
      JobStatus.failed :=
  (batch_rejects_scenario_and_profile [⟨1, 2, none, some 5⟩] "w9" 0 0 0
    (by simp)).2 (engineKnownNodes [])

lemma mem_foldl_insert (pl : List (ℤ × ℤ)) :
    ∀ (s : Finset (ℤ × ℤ)) (x : ℤ × ℤ), x ∈ s →
      x ∈ pl.foldl (fun s p => insert p s) s := by
  induction pl with
  | nil => intro s x hx; simpa using hx
  | cons p pl ih =>
    intro s x hx
    exact ih _ x (Finset.mem_insert_of_mem hx)

lemma mem_foldl_insert_self (pl : List (ℤ × ℤ)) :
    ∀ (s : Finset (ℤ × ℤ)) (x : ℤ × ℤ), x ∈ pl →
      x ∈ pl.foldl (fun s p => insert p s) s := by
  induction pl with
  | nil => intro s x hx; cases hx
  | cons p pl ih =>
    intro s x hx
    rcases List.mem_cons.mp hx with rfl | hx
    · exact mem_foldl_insert pl _ x (Finset.mem_insert_self x s)
    · exact ih _ x hx

lemma fix_fold_monotone (cycles : List (List ℤ)) :
    ∀ (s : Finset (ℤ × ℤ)) (x : ℤ × ℤ), x ∈ s →
      x ∈ cycles.foldl
        (fun s c =>
          if c = [] then s
          else
            ((List.range c.length).map
              (fun i => (c.getD i 0, c.getD ((i + 1) % c.length) 0))).foldl
              (fun s p => insert p s) s)
        s := by
  induction cycles with
  | nil => intro s x hx; simpa using hx
  | cons c cycles ih =>
    intro s x hx
    by_cases hc : c = []
    · simpa [hc] using ih s x hx
    · exact ih _ x (by simpa [hc] using mem_foldl_insert _ s x hx)

lemma mem_fix_fold (cycles : List (List ℤ)) (c : List ℤ) (i : ℕ)
    (hc : c ∈ cycles) (hi : i < c.length) :
    ∀ s : Finset (ℤ × ℤ),
      (c.getD i 0, c.getD ((i + 1) % c.length) 0) ∈
        cycles.foldl
          (fun s c =>
            if c = [] then s
            else
              ((List.range c.length).map
                (fun i => (c.getD i 0, c.getD ((i + 1) % c.length) 0))).foldl
                (fun s p => insert p s) s)
          s := by
  have hc0 : c ≠ [] := by
    intro h
    rw [h] at hi
    simp at hi
  induction cycles with
  | nil => cases hc
  | cons c0 cycles ih =>
    intro s
    rcases List.mem_cons.mp hc with rfl | hmem
    · simp only [List.foldl_cons, if_neg hc0]
      apply fix_fold_monotone
      apply mem_foldl_insert_self
      exact List.mem_map.mpr ⟨i, List.mem_range.mpr hi, rfl⟩
    · simp only [List.foldl_cons]
      exact ih hmem _

lemma mem_fix_edges_to_remove (cycles : List (List ℤ)) (c : List ℤ) (i : ℕ)
    (hc : c ∈ cycles) (hi : i < c.length) :
    (c.getD i 0, c.getD ((i + 1) % c.length) 0) ∈ fix_edges_to_remove cycles :=
  mem_fix_fold cycles c i hc hi ∅

/-- Claim C10: the automated fix removes edges purely by (source, target)
pair membership: the resulting edge log is the original log filtered to
edges whose pair is not scheduled for removal, and every logged edge whose
pair occurs as a consecutive (wrapping) pair of some reported zero-weight
cycle is removed — whatever its weight, so parallel multigraph edges
between the same endpoints are removed along with the near-zero ones. -/
theorem fix_removes_every_matching_edge (m : GraphManager)
    (quality : GraphQualityResult) :
    (fix_graph_quality m quality).1.edges =
      m.edges.filter (fun e =>
        decide ((e.1, e.2.1) ∉ fix_edges_to_remove quality.zero_weight_cycles)) ∧
    (∀ u v w c i, (u, v, w) ∈ m.edges → c ∈ quality.zero_weight_cycles →
      i < c.length → u = c.getD i 0 → v = c.getD ((i + 1) % c.length) 0 →
      (u, v, w) ∉ (fix_graph_quality m quality).1.edges) := by
  have hedges : (fix_graph_quality m quality).1.edges =
      m.edges.filter (fun e =>
        decide ((e.1, e.2.1) ∉ fix_edges_to_remove quality.zero_weight_cycles)) := by
    by_cases hp : fix_edges_to_remove quality.zero_weight_cycles = ∅
    · have hfil : m.edges.filter (fun e =>
          decide ((e.1, e.2.1) ∉ fix_edges_to_remove quality.zero_weight_cycles)) =
            m.edges :=
        List.filter_eq_self.mpr (fun e _ => by simp [hp])
      rw [hfil]
      by_cases hiso : quality.isolated_nodes = [] <;>
        simp [fix_graph_quality, hp, hiso, GraphManager.remove_isolated_nodes]
    · by_cases hiso : quality.isolated_nodes = [] <;>
        simp [fix_graph_quality, hp, hiso, GraphManager.remove_edges,
          GraphManager.remove_isolated_nodes]
  refine ⟨hedges, ?_⟩
  intro u v w c i hmem hc hi hu hv hin
  rw [hedges] at hin
  have := List.of_mem_filter hin
  rw [decide_eq_true_eq] at this
  apply this
  rw [hu, hv]
  exact mem_fix_edges_to_remove quality.zero_weight_cycles c i hc hi

/-- Witness for C10: on the log [(1,2,0), (2,1,0), (1,2,5)] with reported
cycle [1, 2], the heavy parallel edge (1,2,5) is removed as well. -/
theorem fix_removes_every_matching_edge_witness :
    ((1 : ℤ), (2 : ℤ), (5 : ℚ)) ∉
      (fix_graph_quality
        { graph := [(1, 2, 0), (2, 1, 0), (1, 2, 5)]
          edges := [(1, 2, 0), (2, 1, 0), (1, 2, 5)]
          edge_nodes := {1, 2}
          explicit_nodes := ∅ }
        { isolated_nodes := []
          zero_weight_cycles := [[1, 2]]
          zero_cycle_limit_reached := false }).1.edges :=
  (fix_removes_every_matching_edge _ _).2 1 2 5 [1, 2] 0
    (by decide) (by decide) (by decide) (by decide) (by decide)

/-- Witness for C6: removing the non-existent pair set containing (3,4)
from the reachable state holding only the edge (1,2,5) is a no-op
returning 0. -/
theorem remove_edges_correct_witness :
    (runOps [GraphOp.addEdge 1 2 5]).remove_edges {(3, 4)} =
      (runOps [GraphOp.addEdge 1 2 5], 0) :=
  (remove_edges_correct [GraphOp.addEdge 1 2 5] {(3, 4)}).2.2 (by decide)

/-- Witness for C3: with the modification disabling (1,2), no edge from
1 to 2 with weight 5 survives the scenario overlay of the base graph
[(1,2,5), (2,3,5)]. -/
theorem scenario_overlay_correct_witness :
    ((1 : ℤ), (2 : ℤ), (5 : ℚ)) ∉
      build_edges_for_scenario [(1, 2, 5), (2, 3, 5)]
        [⟨1, 2, true, none, none⟩] :=
  (scenario_overlay_correct [(1, 2, 5), (2, 3, 5)] [⟨1, 2, true, none, none⟩]).2
    1 2 ⟨1, 2, true, none, none⟩ (by decide) rfl 5

/-- Witness for C4: the overlay edge produced from base edge (1,2,7) under
the pure-time profile with no metadata rows has a positive weight. -/
theorem profile_overlay_weight_correct_witness :
    0 < (((1 : ℤ), (2 : ℤ), (7 : ℚ)) : Edge).2.2 :=
  (profile_overlay_weight_correct ⟨some 1, some 0, some 0, some 0⟩ []
    [(1, 2, 7)]).2 ((1 : ℤ), (2 : ℤ), (7 : ℚ))
    (by norm_num [build_edges_with_profile, profile_edge_weight, meta_map])

lemma mem_adjGet_adjInsert (adj : List (ℤ × List ℤ)) (u v u' v' : ℤ)
    (h : v' ∈ adjGet (adjInsert adj u v) u') :
    (u' = u ∧ v' = v) ∨ v' ∈ adjGet adj u' := by
  induction adj with
  | nil =>
    simp only [adjInsert, adjGet] at h ⊢
    by_cases hu : u = u'
    · simp [hu] at h
      exact Or.inl ⟨hu.symm, h⟩
    · simp [hu] at h
  | cons kv rest ih =>
    obtain ⟨k, vs⟩ := kv
    by_cases hk : k = u
    · simp only [adjInsert, if_pos hk] at h
      by_cases hk' : k = u'
      · simp only [adjGet, if_pos hk'] at h
        rcases List.mem_append.mp h with hin | hin
        · exact Or.inr (by simp [adjGet, hk', hin])
        · simp at hin
          exact Or.inl ⟨by rw [← hk', hk], hin⟩
      · simp only [adjGet, if_neg hk'] at h
        exact Or.inr (by simp [adjGet, hk', h])
    · simp only [adjInsert, if_neg hk] at h
      by_cases hk' : k = u'
      · simp only [adjGet, if_pos hk'] at h
        exact Or.inr (by simp [adjGet, hk', h])
      · simp only [adjGet, if_neg hk'] at h
        rcases ih h with hl | hr
        · exact Or.inl hl
        · exact Or.inr (by simp [adjGet, hk', hr])

lemma mem_adjGet_zero_fold (eps : ℚ) :
    ∀ (edges : List Edge) (adj : List (ℤ × List ℤ)) (u v : ℤ),
      v ∈ adjGet
        (edges.foldl
          (fun adj e => if |e.2.2| ≤ eps then adjInsert adj e.1 e.2.1 else adj)
          adj) u →
      v ∈ adjGet adj u ∨ ∃ w, (u, v, w) ∈ edges ∧ |w| ≤ eps := by
  intro edges
  induction edges with
  | nil => intro adj u v h; exact Or.inl (by simpa using h)
  | cons e rest ih =>
    intro adj u v h
    rw [List.foldl_cons] at h
    rcases ih _ u v h with hstep | ⟨w, hw, hweps⟩
    · by_cases heps : |e.2.2| ≤ eps
      · rw [if_pos heps] at hstep
        rcases mem_adjGet_adjInsert adj e.1 e.2.1 u v hstep with ⟨hu, hv⟩ | horig
        · exact Or.inr ⟨e.2.2, by
            constructor
            · rw [hu, hv]
              exact List.mem_cons_self e rest
            · exact heps⟩
        · exact Or.inl horig
      · rw [if_neg heps] at hstep
        exact Or.inl hstep
    · exact Or.inr ⟨w, List.mem_cons_of_mem e hw, hweps⟩

lemma mem_adjGet_buildAdj (edges : List Edge) (eps : ℚ) (u v : ℤ)
    (h : v ∈ adjGet (buildAdj edges eps) u) :
    ∃ w, (u, v, w) ∈ edges ∧ |w| ≤ eps := by
  rcases mem_adjGet_zero_fold eps edges [] u v h with hnil | hw
  · simp [adjGet] at hnil
  · exact hw

lemma getD_append_left (l l' : List ℤ) (n : ℕ) (d : ℤ) (h : n < l.length) :
    (l ++ l').getD n d = l.getD n d := by
  simp [List.getD_eq_getElem?_getD, List.getElem?_append_left h]

lemma getD_append_right2 (l l' : List ℤ) (n : ℕ) (d : ℤ) (h : l.length ≤ n) :
    (l ++ l').getD n d = l'.getD (n - l.length) d := by
  simp [List.getD_eq_getElem?_getD, List.getElem?_append_right h]

lemma getD_eq_get (l : List ℤ) (i : ℕ) (h : i < l.length) :
    l.getD i 0 = l.get ⟨i, h⟩ := by
  simp [List.getD_eq_getElem?_getD, List.getElem?_eq_getElem h]

lemma chain'_getD (R : ℤ → ℤ → Prop) :
    ∀ (l : List ℤ), List.Chain' R l → ∀ i, i + 1 < l.length →
      R (l.getD i 0) (l.getD (i + 1) 0) := by
  intro l
  induction l with
  | nil => intro _ i hi; simp at hi
  | cons a l ih =>
    intro h i hi
    cases l with
    | nil => simp at hi
    | cons b l' =>
      rw [List.chain'_cons] at h
      cases i with
      | zero => exact h.1
      | succ k =>
        exact ih h.2 k (by simpa using hi)

lemma adjCycle_getD (adj : List (ℤ × List ℤ)) (c : List ℤ)
    (h : AdjCycle adj c) :
    ∀ i, i < c.length → c.getD ((i + 1) % c.length) 0 ∈ adjGet adj (c.getD i 0) := by
  obtain ⟨hne, hchain⟩ := h
  obtain ⟨a, t, rfl⟩ : ∃ a t, c = a :: t := by
    cases c with
    | nil => exact absurd rfl hne
    | cons a t => exact ⟨a, t, rfl⟩
  rw [show (a :: t).take 1 = [a] from rfl] at hchain
  intro i hi
  have hstep := chain'_getD _ _ hchain i
    (by
      have hi' := hi
      simp only [List.length_append, List.length_cons, List.length_nil] at hi' ⊢
      omega)
  have hleft : ((a :: t) ++ [a]).getD i 0 = (a :: t).getD i 0 :=
    getD_append_left _ _ i 0 hi
  rw [hleft] at hstep
  by_cases hlt : i + 1 < (a :: t).length
  · have : ((a :: t) ++ [a]).getD (i + 1) 0 = (a :: t).getD (i + 1) 0 :=
      getD_append_left _ _ (i + 1) 0 hlt
    rw [this] at hstep
    rw [Nat.mod_eq_of_lt hlt]
    exact hstep
  · have hlen : i + 1 = (a :: t).length := by
      simp only [List.length_cons] at hi hlt ⊢
      omega
    have : ((a :: t) ++ [a]).getD (i + 1) 0 = ([a] : List ℤ).getD 0 0 := by
      rw [getD_append_right2 _ _ (i + 1) 0 (le_of_eq hlen.symm), hlen, Nat.sub_self]
    rw [this] at hstep
    rw [hlen, Nat.mod_self]
    exact hstep

lemma dfsLoop_cyclesAdj (adj : List (ℤ × List ℤ)) (maxC : ℕ) (start : ℤ)
    (path : List ℤ) (child : ℤ → SearchState → SearchState) :
    ∀ (l : List ℤ) (st : SearchState),
      (start ∈ l → AdjCycle adj path) →
      (∀ nxt st', nxt ∈ l → CyclesAdj adj st' → CyclesAdj adj (child nxt st')) →
      CyclesAdj adj st → CyclesAdj adj (dfsLoop maxC start path child l st) := by
  intro l
  induction l with
  | nil => intro st _ _ hP; simpa [dfsLoop] using hP
  | cons nxt rest ih =>
    intro st hclose hchild hP
    have hclose' : start ∈ rest → AdjCycle adj path :=
      fun h => hclose (List.mem_cons_of_mem nxt h)
    have hchild' : ∀ nxt' st', nxt' ∈ rest → CyclesAdj adj st' →
        CyclesAdj adj (child nxt' st') :=
      fun nxt' st' h => hchild nxt' st' (List.mem_cons_of_mem nxt h)
    by_cases h1 : nxt = start
    · subst h1
      have hcyc : AdjCycle adj path := hclose (List.mem_cons_self nxt rest)
      by_cases h2 : 1 ≤ path.length
      · by_cases h3 : canon path ∈ st.seen
        · simp only [dfsLoop, if_pos rfl, if_pos h2, if_pos h3]
          exact ih st hclose' hchild' hP
        · have hP' : CyclesAdj adj
              { seen := canon path :: st.seen
                zero_cycles := st.zero_cycles ++ [path]
                limit_reached := st.limit_reached } := by
            intro c hc
            rcases List.mem_append.mp hc with hold | hnew
            · exact hP c hold
            · simp at hnew
              exact hnew ▸ hcyc
          by_cases h4 : maxC ≤ (st.zero_cycles ++ [path]).length
          · simp only [dfsLoop, if_pos rfl, if_pos h2, if_neg h3, if_pos h4]
            intro c hc
            exact hP' c hc
          · simp only [dfsLoop, if_pos rfl, if_pos h2, if_neg h3, if_neg h4]
            exact ih _ hclose' hchild' hP'
      · simp only [dfsLoop, if_pos rfl, if_neg h2]
        exact ih st hclose' hchild' hP
    · by_cases h5 : nxt ∈ path
      · simp only [dfsLoop, if_neg h1, if_pos h5]
        exact ih st hclose' hchild' hP
      · simp only [dfsLoop, if_neg h1, if_neg h5]
        exact ih _ hclose' hchild'
          (hchild nxt st (List.mem_cons_self nxt rest) hP)

lemma dfs_cyclesAdj (adj : List (ℤ × List ℤ)) (maxC : ℕ) (start : ℤ) :
    ∀ (fuel : ℕ) (current : ℤ) (p : List ℤ) (st : SearchState),
      (start :: p).getLast? = some current →
      List.Chain' (fun a b => b ∈ adjGet adj a) (start :: p) →
      CyclesAdj adj st →
      CyclesAdj adj (dfs adj maxC start fuel current (start :: p) st) := by
  intro fuel
  induction fuel with
  | zero => intro current p st _ _ hP; simpa [dfs] using hP
  | succ fuel ih =>
    intro current p st hlast hchain hP
    by_cases hlim : st.limit_reached = true
    · simpa [dfs, hlim] using hP
    · simp only [dfs, hlim, Bool.false_eq_true, if_false]
      apply dfsLoop_cyclesAdj
      · intro hstart
        refine ⟨by simp, ?_⟩
        rw [show (start :: p).take 1 = [start] from rfl, List.chain'_append]
        refine ⟨hchain, List.chain'_singleton start, ?_⟩
        intro x hx y hy
        rw [hlast] at hx
        simp at hx hy
        rw [← hx, ← hy]
        exact hstart
      · intro nxt st' hnxt hP'
        have hpath : (start :: p) ++ [nxt] = start :: (p ++ [nxt]) := by simp
        rw [hpath]
        apply ih nxt (p ++ [nxt]) st'
        · rw [← hpath]
          exact List.getLast?_concat (start :: p)
        · rw [← hpath, List.chain'_append]
          refine ⟨hchain, List.chain'_singleton nxt, ?_⟩
          intro x hx y hy
          rw [hlast] at hx
          simp at hx hy
          rw [← hx, ← hy]
          exact hnxt
        · exact hP'
      · exact hP

lemma foldStarts_cyclesAdj (adj : List (ℤ × List ℤ)) (maxC maxD : ℕ) :
    ∀ (keys : List (ℤ × List ℤ)) (st : SearchState),
      CyclesAdj adj st →
      CyclesAdj adj (keys.foldl
        (fun st p =>
          if st.limit_reached then st
          else dfs adj maxC p.1 maxD p.1 [p.1] st) st) := by
  intro keys
  induction keys with
  | nil => intro st hP; simpa using hP
  | cons p keys ih =>
    intro st hP
    rw [List.foldl_cons]
    apply ih
    by_cases hlim : st.limit_reached = true
    · simpa [hlim] using hP
    · simp only [hlim, Bool.false_eq_true, if_false]
      exact dfs_cyclesAdj adj maxC p.1 maxD p.1 [] st rfl
        (List.chain'_singleton p.1) hP

lemma zeroCycleSearch_cyclesAdj (edges : List Edge) (maxC maxD : ℕ) (eps : ℚ) :
    CyclesAdj (buildAdj edges eps) (zeroCycleSearch edges maxC maxD eps) := by
  unfold zeroCycleSearch
  exact foldStarts_cyclesAdj _ maxC maxD _ _ (by intro c hc; cases hc)

/-- Claim C7: every cycle reported by analyze_graph_quality is a nonempty
node sequence whose every consecutive pair, the wrap-around from the last
node back to the first included, is joined by an edge of the log with
|weight| ≤ epsilon. -/
theorem reported_cycles_zero_weight (m : GraphManager) (maxC maxD : ℕ)
    (eps : ℚ) (c : List ℤ)
    (hc : c ∈ (analyze_graph_quality m maxC maxD eps).zero_weight_cycles) :
    c ≠ [] ∧ ∀ i, i < c.length →
      ∃ w, (c.getD i 0, c.getD ((i + 1) % c.length) 0, w) ∈ m.get_edges ∧
        |w| ≤ eps := by
  have hc' : c ∈ (zeroCycleSearch m.get_edges maxC maxD eps).zero_cycles := by
    simpa [analyze_graph_quality] using hc
  have hcy : AdjCycle (buildAdj m.get_edges eps) c :=
    zeroCycleSearch_cyclesAdj m.get_edges maxC maxD eps c hc'
  refine ⟨hcy.1, fun i hi => ?_⟩
  exact mem_adjGet_buildAdj m.get_edges eps _ _ (adjCycle_getD _ _ hcy i hi)

/-- Witness for C7 on the concrete graph [(1,2,0), (2,3,0), (3,1,0)]: the
reported cycle [1,2,3] has a near-zero edge on its wrap-around pair (3,1). -/
theorem reported_cycles_zero_weight_witness :
    ∃ w, ((3 : ℤ), (1 : ℤ), w) ∈
        (GraphManager.mk [(1, 2, 0), (2, 3, 0), (3, 1, 0)]
          [(1, 2, 0), (2, 3, 0), (3, 1, 0)] ∅ ∅).get_edges ∧
      |w| ≤ (0 : ℚ) :=
  (reported_cycles_zero_weight
    (GraphManager.mk [(1, 2, 0), (2, 3, 0), (3, 1, 0)]
      [(1, 2, 0), (2, 3, 0), (3, 1, 0)] ∅ ∅)
    50 10 0 [1, 2, 3] (by decide)).2 2 (by decide)

lemma dfsLoop_dedup (maxC : ℕ) (start : ℤ) (path : List ℤ)
    (child : ℤ → SearchState → SearchState)
    (hnd : path.Nodup) (hne : path ≠ []) :
    ∀ (l : List ℤ) (st : SearchState),
      (∀ nxt st', nxt ∈ l → nxt ∉ path → DedupInv st' → DedupInv (child nxt st')) →
      DedupInv st → DedupInv (dfsLoop maxC start path child l st) := by
  intro l
  induction l with
  | nil => intro st _ hP; simpa [dfsLoop] using hP
  | cons nxt rest ih =>
    intro st hchild hP
    have hchild' : ∀ nxt' st', nxt' ∈ rest → nxt' ∉ path → DedupInv st' →
        DedupInv (child nxt' st') :=
      fun nxt' st' h => hchild nxt' st' (List.mem_cons_of_mem nxt h)
    by_cases h1 : nxt = start
    · subst h1
      by_cases h2 : 1 ≤ path.length
      · by_cases h3 : canon path ∈ st.seen
        · simp only [dfsLoop, if_pos rfl, if_pos h2, if_pos h3]
          exact ih st hchild' hP
        · obtain ⟨hseen, hpair, hgood⟩ := hP
          have hP' : DedupInv
              { seen := canon path :: st.seen
                zero_cycles := st.zero_cycles ++ [path]
                limit_reached := st.limit_reached } := by
            refine ⟨?_, ?_, ?_⟩
            · intro c hc
              rcases List.mem_append.mp hc with hold | hnew
              · exact List.mem_cons_of_mem _ (hseen c hold)
              · simp at hnew
                rw [hnew]
                exact List.mem_cons_self _ _
            · rw [List.pairwise_append]
              refine ⟨hpair, List.pairwise_singleton _ _, ?_⟩
              intro a ha b hb
              simp at hb
              rw [hb]
              intro hcontra
              exact h3 (hcontra ▸ hseen a ha)
            · intro c hc
              rcases List.mem_append.mp hc with hold | hnew
              · exact hgood c hold
              · simp at hnew
                rw [hnew]
                exact ⟨hnd, hne⟩
          by_cases h4 : maxC ≤ (st.zero_cycles ++ [path]).length
          · simp only [dfsLoop, if_pos rfl, if_pos h2, if_neg h3, if_pos h4]
            exact hP'
          · simp only [dfsLoop, if_pos rfl, if_pos h2, if_neg h3, if_neg h4]
            exact ih _ hchild' hP'
      · simp only [dfsLoop, if_pos rfl, if_neg h2]
        exact ih st hchild' hP
    · by_cases h5 : nxt ∈ path
      · simp only [dfsLoop, if_neg h1, if_pos h5]
        exact ih st hchild' hP
      · simp only [dfsLoop, if_neg h1, if_neg h5]
        exact ih _ hchild'
          (hchild nxt st (List.mem_cons_self nxt rest) h5 hP)

lemma dfs_dedup (adj : List (ℤ × List ℤ)) (maxC : ℕ) (start : ℤ) :
    ∀ (fuel : ℕ) (current : ℤ) (path : List ℤ) (st : SearchState),
      path.Nodup → path ≠ [] →
      DedupInv st → DedupInv (dfs adj maxC start fuel current path st) := by
  intro fuel
  induction fuel with
  | zero => intro current path st _ _ hP; simpa [dfs] using hP
  | succ fuel ih =>
    intro current path st hnd hne hP
    by_cases hlim : st.limit_reached = true
    · simpa [dfs, hlim] using hP
    · simp only [dfs, hlim, Bool.false_eq_true, if_false]
      apply dfsLoop_dedup maxC start path _ hnd hne
      · intro nxt st' _ hnotin hP'
        apply ih nxt (path ++ [nxt]) st'
        · simp [List.nodup_append, hnd, hnotin]
        · simp
        · exact hP'
      · exact hP

lemma foldStarts_dedup (adj : List (ℤ × List ℤ)) (maxC maxD : ℕ) :
    ∀ (keys : List (ℤ × List ℤ)) (st : SearchState),
      DedupInv st →
      DedupInv (keys.foldl
        (fun st p =>
          if st.limit_reached then st
          else dfs adj maxC p.1 maxD p.1 [p.1] st) st) := by
  intro keys
  induction keys with
  | nil => intro st hP; simpa using hP
  | cons p keys ih =>
    intro st hP
    rw [List.foldl_cons]
    apply ih
    by_cases hlim : st.limit_reached = true
    · simpa [hlim] using hP
    · simp only [hlim, Bool.false_eq_true, if_false]
      exact dfs_dedup adj maxC p.1 maxD p.1 [p.1] st (by simp) (by simp) hP

lemma zeroCycleSearch_dedup (edges : List Edge) (maxC maxD : ℕ) (eps : ℚ) :
    DedupInv (zeroCycleSearch edges maxC maxD eps) := by
  unfold zeroCycleSearch
  exact foldStarts_dedup _ maxC maxD _ _
    ⟨fun c hc => absurd hc (by simp), List.Pairwise.nil,
      fun c hc => absurd hc (by simp)⟩


lemma listMin_eq_none (l : List ℤ) : listMin l = none ↔ l = [] := by
  cases l <;> simp [listMin]

lemma listMin_mem : ∀ (l : List ℤ) (m : ℤ), listMin l = some m → m ∈ l := by
  intro l
  induction l with
  | nil => intro m h; cases h
  | cons x xs ih =>
    intro m h
    cases hmin : listMin xs with
    | none =>
      simp only [listMin, hmin, Option.some.injEq] at h
      simp [← h]
    | some mm =>
      simp only [listMin, hmin, Option.some.injEq] at h
      rcases min_choice x mm with hch | hch
      · rw [hch] at h
        simp [← h]
      · rw [hch] at h
        exact List.mem_cons_of_mem x (h ▸ ih mm hmin)

lemma listMin_le : ∀ (l : List ℤ) (m : ℤ), listMin l = some m →
    ∀ x ∈ l, m ≤ x := by
  intro l
  induction l with
  | nil => intro m h; cases h
  | cons x xs ih =>
    intro m h y hy
    cases hmin : listMin xs with
    | none =>
      simp only [listMin, hmin, Option.some.injEq] at h
      have hxs : xs = [] := (listMin_eq_none xs).mp hmin
      subst hxs
      simp at hy
      rw [hy, ← h]
    | some mm =>
      simp only [listMin, hmin, Option.some.injEq] at h
      rcases List.mem_cons.mp hy with hy' | hmem
      · rw [hy', ← h]
        exact min_le_left x mm
      · calc m = x ⊓ mm := h.symm
          _ ≤ mm := min_le_right x mm
          _ ≤ y := ih mm hmin y hmem

lemma listMin_isSome (l : List ℤ) (h : l ≠ []) : ∃ m, listMin l = some m := by
  cases l with
  | nil => exact absurd rfl h
  | cons x xs => exact ⟨_, rfl⟩

lemma listMin_eq_of (l : List ℤ) (m : ℤ) (hm : m ∈ l)
    (hle : ∀ x ∈ l, m ≤ x) : listMin l = some m := by
  obtain ⟨m', hm'⟩ := listMin_isSome l (by rintro rfl; cases hm)
  have h1 : m' ≤ m := listMin_le l m' hm' m hm
  have h2 : m ≤ m' := hle m' (listMin_mem l m' hm')
  rw [hm', le_antisymm h1 h2]

lemma listMin_perm (l l' : List ℤ) (hp : List.Perm l l') :
    listMin l = listMin l' := by
  by_cases h : l = []
  · subst h
    rw [hp.symm.eq_nil]
  · obtain ⟨m, hm⟩ := listMin_isSome l h
    rw [hm]
    exact (listMin_eq_of l' m (hp.mem_iff.mp (listMin_mem l m hm))
      (fun x hx => listMin_le l m hm x (hp.mem_iff.mpr hx))).symm

lemma listIndexOf_lt_length : ∀ (l : List ℤ) (a : ℤ), a ∈ l →
    listIndexOf a l < l.length := by
  intro l
  induction l with
  | nil => intro a ha; cases ha
  | cons x xs ih =>
    intro a ha
    by_cases hx : x = a
    · simp [listIndexOf, hx]
    · have ha' : a ∈ xs := by
        rcases List.mem_cons.mp ha with h | h
        · exact absurd h.symm hx
        · exact h
      simp only [listIndexOf, if_neg hx, List.length_cons]
      exact Nat.succ_lt_succ (ih a ha')

lemma listIndexOf_getD : ∀ (l : List ℤ) (a : ℤ), a ∈ l →
    l.getD (listIndexOf a l) 0 = a := by
  intro l
  induction l with
  | nil => intro a ha; cases ha
  | cons x xs ih =>
    intro a ha
    by_cases hx : x = a
    · simp [listIndexOf, hx]
    · have ha' : a ∈ xs := by
        rcases List.mem_cons.mp ha with h | h
        · exact absurd h.symm hx
        · exact h
      simp only [listIndexOf, if_neg hx]
      exact ih a ha'

lemma canon_eq_rotate (c : List ℤ) (m : ℤ) (hm : listMin c = some m) :
    canon c = c.rotate (listIndexOf m c) := by
  unfold canon
  rw [hm]
  exact (List.rotate_eq_drop_append_take
    (le_of_lt (listIndexOf_lt_length c m (listMin_mem c m hm)))).symm

lemma canon_rotate (c : List ℤ) (hnd : c.Nodup) (n : ℕ) :
    canon (c.rotate n) = canon c := by
  by_cases hc : c = []
  · subst hc
    simp
  · obtain ⟨m, hm⟩ := listMin_isSome c hc
    have hperm : List.Perm (c.rotate n) c := c.rotate_perm n
    have hm' : listMin (c.rotate n) = some m := (listMin_perm _ _ hperm).trans hm
    have hmemc : m ∈ c := listMin_mem c m hm
    have hmemr : m ∈ c.rotate n := hperm.mem_iff.mpr hmemc
    have hi : listIndexOf m c < c.length := listIndexOf_lt_length c m hmemc
    have hj : listIndexOf m (c.rotate n) < (c.rotate n).length :=
      listIndexOf_lt_length _ m hmemr
    have hmod : (listIndexOf m (c.rotate n) + n) % c.length < c.length :=
      Nat.mod_lt _ (by
        cases c with
        | nil => exact absurd rfl hc
        | cons a t => simp)
    have hgr : c.get ⟨(listIndexOf m (c.rotate n) + n) % c.length, hmod⟩ = m := by
      have e1 : (c.rotate n).getD (listIndexOf m (c.rotate n)) 0 = m :=
        listIndexOf_getD _ m hmemr
      rw [getD_eq_get _ _ hj, List.get_rotate] at e1
      exact e1
    have hgc : c.get ⟨listIndexOf m c, hi⟩ = m := by
      have e2 : c.getD (listIndexOf m c) 0 = m := listIndexOf_getD _ m hmemc
      rwa [getD_eq_get _ _ hi] at e2
    have hfin : (⟨(listIndexOf m (c.rotate n) + n) % c.length, hmod⟩ :
        Fin c.length) = ⟨listIndexOf m c, hi⟩ :=
      (List.Nodup.get_inj_iff hnd).mp (by rw [hgr, hgc])
    have hidx : (listIndexOf m (c.rotate n) + n) % c.length = listIndexOf m c :=
      congrArg Fin.val hfin
    rw [canon_eq_rotate c m hm, canon_eq_rotate (c.rotate n) m hm',
      List.rotate_rotate]
    conv_lhs => rw [← List.rotate_mod]
    rw [Nat.add_comm n _, hidx]

/-- Claim C8: no two cycles in the reported zero-weight-cycle list are
rotations of one another: the canonical forms (node sequence rotated to
start at the first occurrence of its minimum value) of the reported cycles
are pairwise distinct, and consequently no reported cycle is a rotation of
another. -/
theorem reported_cycles_rotation_dedup (m : GraphManager) (maxC maxD : ℕ)
    (eps : ℚ) :
    (analyze_graph_quality m maxC maxD eps).zero_weight_cycles.Pairwise
      (fun a b => canon a ≠ canon b ∧ ¬ a.IsRotated b) := by
  obtain ⟨hseen, hpair, hgood⟩ := zeroCycleSearch_dedup m.get_edges maxC maxD eps
  have hcycles : (analyze_graph_quality m maxC maxD eps).zero_weight_cycles =
      (zeroCycleSearch m.get_edges maxC maxD eps).zero_cycles := rfl
  rw [hcycles]
  refine List.Pairwise.imp_of_mem ?_ hpair
  intro a b ha _ hne
  refine ⟨hne, fun hrot => ?_⟩
  obtain ⟨n, hr⟩ := hrot
  exact hne (hr ▸ (canon_rotate a (hgood a ha).1 n)).symm
